import Mathlib

/-!
Shallow embedding of the `todo-cli` repository.

The store is the SQLite table `todos (id INTEGER PRIMARY KEY, title TEXT NOT NULL,
done BOOLEAN NOT NULL)`.  A table state is modelled as the list of its rows in
rowid order; since `id INTEGER PRIMARY KEY` aliases the rowid, a valid table
state has strictly increasing `id`s (the B-tree is keyed by rowid), and a plain
`SELECT` scan returns rows in that order.  Row ids are natural numbers (SQLite
stores them as non-negative integers here; the Rust side reads them as `usize`).
-/

/-- A todo item, from `src/todo.rs`: `id : usize`, `title : String`, `done : bool`. -/
structure Todo where
  id : Nat
  title : String
  done : Bool
  deriving DecidableEq

/-- `Todo::new` from `src/todo.rs`: fresh item with the given title, `done = false`,
placeholder `id = 0`. -/
def Todo.new (title : String) : Todo :=
  { title := title, done := false, id := 0 }

/-- A database state: the rows of the `todos` table in rowid (= `id`) order. -/
abbrev DB := List Todo

/-- `get_todos` from `src/db.rs`: `SELECT id, title, done FROM todos` returns the rows
in table-scan (rowid) order.  In the model every row decodes, so the
`filter_map(Result::ok)` step keeps all rows. -/
def get_todos (db : DB) : List Todo := db

/-- The rowid SQLite assigns to the next inserted row: one more than the largest
existing rowid (1 on an empty table). -/
def nextId (db : DB) : Nat :=
  (db.map Todo.id).foldr max 0 + 1

/-- One `INSERT INTO todos (title, done) VALUES (?1, ?2)` statement: appends a row
with an auto-assigned id.  Appending keeps rowid order because the new id exceeds
every existing id. -/
def insertRow (db : DB) (title : String) (done : Bool) : DB :=
  db ++ [{ id := nextId db, title := title, done := done }]

/-- `add_todos` from `src/db.rs`: inserts one row per todo (binding only `title` and
`done`; the todo's `id` field is ignored), inside one transaction. -/
def add_todos (db : DB) (todos : List Todo) : DB :=
  todos.foldl (fun d t => insertRow d t.title t.done) db

/-- The effect of one `UPDATE todos SET title = ?1, done = ?2 WHERE id = ?3` statement
on a single row: a row whose id equals `t.id` gets its title and done replaced by
`t`'s, any other row is untouched. -/
def applyUpd (r t : Todo) : Todo :=
  if r.id = t.id then { r with title := t.title, done := t.done } else r

/-- One `UPDATE todos SET title = ?1, done = ?2 WHERE id = ?3` statement applied to
the whole table. -/
def updateRow (db : DB) (t : Todo) : DB :=
  db.map fun r => applyUpd r t

/-- `update_todos` from `src/db.rs`: one id-keyed UPDATE per todo, inside one
transaction. -/
def update_todos (db : DB) (todos : List Todo) : DB :=
  todos.foldl updateRow db

/-- `remove_todos` from `src/db.rs`: each requested id is converted with `as u32`
(truncation mod 2^32) into the `rarray` deletion set, then
`DELETE FROM todos WHERE id in rarray(?1)` removes every row whose id is in the set. -/
def remove_todos (db : DB) (ids : List Nat) : DB :=
  db.filter fun r => !((ids.map fun i => i % 2 ^ 32).contains r.id)

/-- `add_command` from `src/commands.rs`: wraps each title with `Todo::new` and calls
`add_todos`. -/
def add_command (db : DB) (titles : List String) : DB :=
  add_todos db (titles.map Todo.new)

/-- `set_done_command` from `src/commands.rs`: reads all todos, keeps those whose
0-based position is in `ids`, sets their `done` flag to the given value, and calls
`update_todos` with exactly those copies. -/
def set_done_command (db : DB) (ids : List Nat) (done : Bool) : DB :=
  update_todos db
    (((get_todos db).enum.filter fun p => ids.contains p.1).map
      fun p => { p.2 with done := done })

/-- `remove_command` from `src/commands.rs`: reads all todos, collects the ids of
those whose 0-based position is in `indexes`, and calls `remove_todos`. -/
def remove_command (db : DB) (indexes : List Nat) : DB :=
  remove_todos db
    (((get_todos db).enum.filter fun p => indexes.contains p.1).map fun p => p.2.id)

/-- `clear_command` from `src/commands.rs`: reads all todos, collects the ids of
those with `done = true`, and calls `remove_todos`. -/
def clear_command (db : DB) : DB :=
  remove_todos db (((get_todos db).filter fun t => t.done).map fun t => t.id)

/-- The statements of a multi-row transaction executed in order with an explicit
per-statement failure oracle (`fail i = true` means the i-th `statement.execute`
call fails): `none` when some statement fails before all have run, `some` of the
accumulated table state when all succeed. -/
def txRun (step : DB → Todo → DB) (fail : Nat → Bool) : Nat → DB → List Todo → Option DB
  | _, cur, [] => some cur
  | i, cur, t :: ts => if fail i then none else txRun step fail (i + 1) (step cur t) ts

/-- `add_todos` from `src/db.rs` under a statement-failure oracle.  The `?` operator
on each `statement.execute` returns the first failure before `transaction.commit()`
is reached; the dropped uncommitted transaction is rolled back by SQLite, so on
failure the durable state is the original `db`.  Returns the call's result together
with the durable table state after the call. -/
def add_todos_tx (db : DB) (todos : List Todo) (fail : Nat → Bool) :
    Except Unit Unit × DB :=
  match txRun (fun d t => insertRow d t.title t.done) fail 0 db todos with
  | none => (Except.error (), db)
  | some cur => (Except.ok (), cur)

/-- `update_todos` from `src/db.rs` under a statement-failure oracle, as in
`add_todos_tx`. -/
def update_todos_tx (db : DB) (todos : List Todo) (fail : Nat → Bool) :
    Except Unit Unit × DB :=
  match txRun updateRow fail 0 db todos with
  | none => (Except.error (), db)
  | some cur => (Except.ok (), cur)

/-- Database states reachable by running the CLI's mutating commands starting from
the empty table created by `create_table`. -/
inductive Reachable : DB → Prop
  | empty : Reachable []
  | add (titles : List String) {db : DB} : Reachable db → Reachable (add_command db titles)
  | setDone (ids : List Nat) (done : Bool) {db : DB} :
      Reachable db → Reachable (set_done_command db ids done)
  | remove (indexes : List Nat) {db : DB} :
      Reachable db → Reachable (remove_command db indexes)
  | clear {db : DB} : Reachable db → Reachable (clear_command db)

/-! ## Helper lemmas -/

theorem contains_true_iff {l : List Nat} {a : Nat} : l.contains a = true ↔ a ∈ l :=
  List.elem_iff

theorem map_mod_of_lt {ids : List Nat} (h : ∀ i ∈ ids, i < 2 ^ 32) :
    (ids.map fun i => i % 2 ^ 32) = ids := by
  rw [List.map_congr_left fun i hi => Nat.mod_eq_of_lt (h i hi), List.map_id' ids]

/-! ## C9: `remove_todos` truncates requested ids to 32 bits -/

/-- C9: `remove_todos` converts every requested id with `as u32` before building the
deletion set, so a requested id at least `2 ^ 32` targets the id reduced mod `2 ^ 32`
instead of the requested id. -/
theorem remove_todos_truncates_u32 (db : DB) (i : Nat) (ids : List Nat)
    (h : 2 ^ 32 ≤ i) :
    remove_todos db (i :: ids) = remove_todos db (i % 2 ^ 32 :: ids) := by
  unfold remove_todos
  simp only [List.map_cons, Nat.mod_mod_of_dvd _ dvd_rfl]

/-- C9 witness: deleting requested id `2 ^ 32 + 5` behaves as deleting id `5`. -/
theorem remove_todos_truncates_u32_witness :
    2 ^ 32 ≤ 4294967301 ∧
    remove_todos [Todo.mk 5 "x" false] [4294967301] =
      remove_todos [Todo.mk 5 "x" false] [4294967301 % 2 ^ 32] :=
  ⟨by decide, remove_todos_truncates_u32 [Todo.mk 5 "x" false] 4294967301 [] (by decide)⟩

/-! ## C8: deleting absent ids -/

/-- C8 counterexample: the requested id `2 ^ 32 + 5` is not the id of any stored row,
yet the call is not a no-op: the row with id `5` (an id not in the requested set) is
deleted, because the request is truncated to 32 bits. -/
theorem remove_todos_truncation_cex :
    remove_todos [Todo.mk 5 "x" false] [4294967301] = [] ∧
    (4294967301 : Nat) ∉ [Todo.mk 5 "x" false].map Todo.id ∧
    (5 : Nat) ∉ [(4294967301 : Nat)] := by
  exact ⟨by decide, by decide, by decide⟩

/-- C8 amended: when every requested id fits in 32 bits, `remove_todos` deletes
exactly the rows whose id is in the requested set (rows whose ids are not in the set
are unchanged), and a request containing no stored id is a no-op, not an error. -/
theorem remove_todos_noop_on_absent (db : DB) (ids : List Nat)
    (h : ∀ i ∈ ids, i < 2 ^ 32) :
    remove_todos db ids = db.filter (fun r => !(ids.contains r.id)) ∧
    ((∀ i ∈ ids, ∀ r ∈ db, r.id ≠ i) → remove_todos db ids = db) := by
  have hbase : remove_todos db ids = db.filter (fun r => !(ids.contains r.id)) := by
    unfold remove_todos
    rw [map_mod_of_lt h]
  refine ⟨hbase, fun habs => ?_⟩
  rw [hbase]
  apply List.filter_eq_self.mpr
  intro r hr
  rw [Bool.not_eq_true']
  by_contra hc
  rw [Bool.not_eq_false, contains_true_iff] at hc
  exact habs r.id hc r hr rfl

/-- C8 witness: ids `3` and `4` are absent from a store holding ids `1` and `2`, and
removing them changes nothing; rows outside a requested set are unchanged. -/
theorem remove_todos_noop_on_absent_witness :
    (∀ i ∈ [3, 4], i < 2 ^ 32) ∧
    (remove_todos [Todo.mk 1 "a" false, Todo.mk 2 "b" true] [3, 4] =
      List.filter (fun r => !(List.contains [3, 4] r.id))
        [Todo.mk 1 "a" false, Todo.mk 2 "b" true] ∧
    ((∀ i ∈ [3, 4], ∀ r ∈ [Todo.mk 1 "a" false, Todo.mk 2 "b" true], r.id ≠ i) →
      remove_todos [Todo.mk 1 "a" false, Todo.mk 2 "b" true] [3, 4] =
        [Todo.mk 1 "a" false, Todo.mk 2 "b" true])) :=
  ⟨by decide,
    remove_todos_noop_on_absent [Todo.mk 1 "a" false, Todo.mk 2 "b" true] [3, 4]
      (by decide)⟩

/-! ## C6: transactional atomicity of multi-row mutations -/

theorem txRun_none (step : DB → Todo → DB) (fail : Nat → Bool) :
    ∀ (ts : List Todo) (n : Nat) (cur : DB),
      (∃ i, i < ts.length ∧ fail (n + i) = true) → txRun step fail n cur ts = none := by
  intro ts
  induction ts with
  | nil =>
    rintro n cur ⟨i, hi, -⟩
    exact absurd hi (by simp)
  | cons t ts ih =>
    rintro n cur ⟨i, hi, hf⟩
    unfold txRun
    by_cases hb : fail n = true
    · rw [if_pos hb]
    · rw [if_neg hb]
      apply ih
      cases i with
      | zero => exact absurd (by simpa using hf) hb
      | succ j =>
        refine ⟨j, by simpa using hi, ?_⟩
        rw [← hf]
        congr 1
        omega

theorem txRun_success (step : DB → Todo → DB) :
    ∀ (ts : List Todo) (n : Nat) (cur : DB),
      txRun step (fun _ => false) n cur ts = some (ts.foldl step cur) := by
  intro ts
  induction ts with
  | nil => intro n cur; rfl
  | cons t ts ih =>
    intro n cur
    unfold txRun
    rw [if_neg (by simp)]
    exact ih (n + 1) (step cur t)

/-- C6: if any constituent statement of `add_todos` or `update_todos` fails, the call
returns an error and the durable state is unchanged (the transaction is never
committed); with no failure, the transaction commits the full multi-row mutation. -/
theorem multi_row_mutation_atomic (db : DB) (ts us : List Todo)
    (fail fail' : Nat → Bool)
    (h : ∃ i, i < ts.length ∧ fail i = true)
    (h' : ∃ i, i < us.length ∧ fail' i = true) :
    add_todos_tx db ts fail = (Except.error (), db) ∧
    update_todos_tx db us fail' = (Except.error (), db) ∧
    add_todos_tx db ts (fun _ => false) = (Except.ok (), add_todos db ts) ∧
    update_todos_tx db us (fun _ => false) = (Except.ok (), update_todos db us) := by
  refine ⟨?_, ?_, ?_, ?_⟩
  · unfold add_todos_tx
    rw [txRun_none _ fail ts 0 db (by simpa using h)]
  · unfold update_todos_tx
    rw [txRun_none _ fail' us 0 db (by simpa using h')]
  · unfold add_todos_tx
    rw [txRun_success _ ts 0 db]
    rfl
  · unfold update_todos_tx
    rw [txRun_success _ us 0 db]
    rfl

/-- C6 witness: a failing first statement aborts the whole call on a store with one
prior row, leaving it unchanged; with no failure the inserts and updates commit. -/
theorem multi_row_mutation_atomic_witness :
    add_todos_tx [Todo.mk 1 "a" false] [Todo.new "b"] (fun _ => true) =
      (Except.error (), [Todo.mk 1 "a" false]) ∧
    update_todos_tx [Todo.mk 1 "a" false] [Todo.mk 1 "a" true] (fun _ => true) =
      (Except.error (), [Todo.mk 1 "a" false]) ∧
    add_todos_tx [Todo.mk 1 "a" false] [Todo.new "b"] (fun _ => false) =
      (Except.ok (), add_todos [Todo.mk 1 "a" false] [Todo.new "b"]) ∧
    update_todos_tx [Todo.mk 1 "a" false] [Todo.mk 1 "a" true] (fun _ => false) =
      (Except.ok (), update_todos [Todo.mk 1 "a" false] [Todo.mk 1 "a" true]) :=
  multi_row_mutation_atomic [Todo.mk 1 "a" false] [Todo.new "b"] [Todo.mk 1 "a" true]
    (fun _ => true) (fun _ => true) ⟨0, by decide, rfl⟩ ⟨0, by decide, rfl⟩

/-! ## C10: updating an absent id is a no-op -/

theorem updateRow_absent (db : DB) (t : Todo) (h : t.id ∉ db.map Todo.id) :
    updateRow db t = db := by
  unfold updateRow
  have hall : ∀ r ∈ db, applyUpd r t = r := by
    intro r hr
    unfold applyUpd
    rw [if_neg]
    intro he
    exact h (he ▸ List.mem_map_of_mem Todo.id hr)
  rw [List.map_congr_left hall, List.map_id' db]

/-- C10: `update_todos` applied to items whose ids are absent from the store succeeds
and leaves the stored state unchanged (the id-keyed UPDATE matches no row). -/
theorem update_todos_absent_id_noop (db : DB) (ts : List Todo)
    (h : ∀ t ∈ ts, t.id ∉ db.map Todo.id) : update_todos db ts = db := by
  induction ts with
  | nil => rfl
  | cons t ts ih =>
    have hstep : update_todos db (t :: ts) = update_todos (updateRow db t) ts := rfl
    rw [hstep, updateRow_absent db t (h t (by simp))]
    exact ih fun s hs => h s (by simp [hs])

/-! ## Characterization of `set_done_command` (C2, C7) -/

theorem enum_mem_spec {α : Type _} {l : List α} {p : Nat × α} (hp : p ∈ l.enum) :
    ∃ h : p.1 < l.length, l[p.1] = p.2 := by
  obtain ⟨i, x⟩ := p
  obtain ⟨-, h2, h3⟩ := List.mem_enumFrom hp
  refine ⟨by simpa using h2, ?_⟩
  simp only [Nat.sub_zero] at h3
  exact h3.symm

theorem mem_enum_of_lt {α : Type _} {l : List α} {i : Nat} (h : i < l.length) :
    (i, l[i]) ∈ l.enum := by
  have h' : i < l.enum.length := by simpa [List.enum_length] using h
  have he := List.getElem_enum l i h'
  exact he ▸ List.getElem_mem h'

theorem foldl_applyUpd_of_not_mem (ts : List Todo) (r : Todo)
    (h : ∀ t ∈ ts, t.id ≠ r.id) : List.foldl applyUpd r ts = r := by
  induction ts with
  | nil => rfl
  | cons t ts ih =>
    have hstep : applyUpd r t = r := by
      unfold applyUpd
      rw [if_neg fun he => h t (by simp) he.symm]
    rw [List.foldl_cons, hstep]
    exact ih fun s hs => h s (by simp [hs])

theorem foldl_applyUpd_of_mem (ts : List Todo) (r t₀ : Todo)
    (hn : (ts.map Todo.id).Nodup) (hmem : t₀ ∈ ts) (hid : r.id = t₀.id) :
    List.foldl applyUpd r ts = { r with title := t₀.title, done := t₀.done } := by
  induction ts with
  | nil => exact absurd hmem (by simp)
  | cons t ts ih =>
    rw [List.map_cons, List.nodup_cons] at hn
    rcases List.mem_cons.mp hmem with heq | hmem'
    · subst heq
      have hstep : applyUpd r t₀ = { r with title := t₀.title, done := t₀.done } := by
        unfold applyUpd
        rw [if_pos hid]
      rw [List.foldl_cons, hstep]
      apply foldl_applyUpd_of_not_mem
      intro s hs he
      have hsid : s.id = t₀.id := he.trans hid
      exact hn.1 (hsid ▸ List.mem_map_of_mem Todo.id hs)
    · have hne : t.id ≠ r.id := by
        intro he
        apply hn.1
        have hs : t.id = t₀.id := he.trans hid
        rw [hs]
        exact List.mem_map_of_mem Todo.id hmem'
      have hstep : applyUpd r t = r := by
        unfold applyUpd
        rw [if_neg fun he => hne he.symm]
      rw [List.foldl_cons, hstep]
      exact ih hn.2 hmem'

theorem update_todos_eq_map (db : DB) (ts : List Todo) :
    update_todos db ts = db.map fun r => List.foldl applyUpd r ts := by
  induction ts generalizing db with
  | nil =>
    show db = db.map fun r => r
    rw [List.map_id' db]
  | cons t ts ih =>
    have hstep : update_todos db (t :: ts) = update_todos (updateRow db t) ts := rfl
    rw [hstep, ih (updateRow db t)]
    unfold updateRow
    rw [List.map_map]
    rfl

/-- The selected copies handed by `set_done_command` to `update_todos`. -/
theorem set_done_sel_spec (db : DB) (ids : List Nat) (v : Bool) :
    ∀ t ∈ ((db.enum.filter fun p => ids.contains p.1).map
        fun p => { p.2 with done := v }),
      ∃ i, ∃ hi : i < db.length,
        ids.contains i = true ∧ t = { db[i] with done := v } := by
  intro t ht
  obtain ⟨p, hp, hfp⟩ := List.mem_map.mp ht
  obtain ⟨hpe, hpc⟩ := List.mem_filter.mp hp
  obtain ⟨hlt, hget⟩ := enum_mem_spec hpe
  refine ⟨p.1, hlt, hpc, ?_⟩
  rw [← hfp]
  exact congrArg (fun x : Todo => { x with done := v }) hget.symm

theorem set_done_sel_nodup {db : DB} (ids : List Nat) (v : Bool)
    (h : (db.map Todo.id).Nodup) :
    (((db.enum.filter fun p => ids.contains p.1).map
        fun p => { p.2 with done := v }).map Todo.id).Nodup := by
  rw [List.map_map]
  have hsub : ((db.enum.filter fun p => ids.contains p.1).map
      (Todo.id ∘ fun p : Nat × Todo => { p.2 with done := v })).Sublist
      (db.enum.map (Todo.id ∘ fun p : Nat × Todo => { p.2 with done := v })) :=
    List.Sublist.map _ (List.filter_sublist _)
  have heq : db.enum.map (Todo.id ∘ fun p : Nat × Todo => { p.2 with done := v }) =
      db.map Todo.id := by
    have : (Todo.id ∘ fun p : Nat × Todo => { p.2 with done := v }) =
        (Todo.id ∘ Prod.snd) := rfl
    rw [this, ← List.map_map, List.enum_map_snd]
  exact hsub.nodup (heq ▸ h)

theorem set_done_eq {db : DB} (ids : List Nat) (v : Bool)
    (h : (db.map Todo.id).Nodup) :
    set_done_command db ids v =
      db.enum.map fun p => if ids.contains p.1 then { p.2 with done := v } else p.2 := by
  unfold set_done_command get_todos
  rw [update_todos_eq_map]
  apply List.ext_getElem
  · simp [List.enum_length]
  intro j h1 h2
  rw [List.getElem_map, List.getElem_map, List.getElem_enum]
  have h1' : j < db.length := by simpa using h1
  show List.foldl applyUpd db[j]
      ((db.enum.filter fun p => ids.contains p.1).map fun p => { p.2 with done := v }) =
    if ids.contains j then { db[j] with done := v } else db[j]
  by_cases hc : ids.contains j = true
  · rw [if_pos hc]
    have hmem : ({ db[j] with done := v } : Todo) ∈
        ((db.enum.filter fun p => ids.contains p.1).map
          fun p => { p.2 with done := v }) :=
      List.mem_map_of_mem _ (List.mem_filter.mpr ⟨mem_enum_of_lt h1', hc⟩)
    exact foldl_applyUpd_of_mem _ (db[j]) _ (set_done_sel_nodup ids v h) hmem rfl
  · rw [if_neg hc]
    apply foldl_applyUpd_of_not_mem
    intro t ht he
    obtain ⟨i, hi, hic, hteq⟩ := set_done_sel_spec db ids v t ht
    have hmapi : i < (db.map Todo.id).length := by simpa using hi
    have hmapj : j < (db.map Todo.id).length := by simpa using h1'
    have hge : (db.map Todo.id)[i] = (db.map Todo.id)[j] := by
      rw [List.getElem_map, List.getElem_map]
      have ht1 : t.id = db[i].id := by rw [hteq]
      exact ht1.symm.trans he
    have hij : i = j := (h.getElem_inj_iff).mp hge
    rw [hij] at hic
    exact hc hic

/-- C2: exactly the items whose 0-based display position is in `ids` get their done
flag set to the given value; every other item (and every out-of-range position) is
left unchanged, and the call involves no error.  The `Nodup` hypothesis is the
`id INTEGER PRIMARY KEY` schema invariant. -/
theorem set_done_command_marks_exactly_positions (db : DB) (ids : List Nat) (v : Bool)
    (h : (db.map Todo.id).Nodup) :
    set_done_command db ids v =
      db.enum.map fun p => if ids.contains p.1 then { p.2 with done := v } else p.2 :=
  set_done_eq ids v h

/-- C2 witness: marking positions `0` and `7` done on a two-item store sets the done
flag of the first item only; the out-of-range position `7` is ignored. -/
theorem set_done_command_marks_exactly_positions_witness :
    ([Todo.mk 1 "a" false, Todo.mk 2 "b" false].map Todo.id).Nodup ∧
    set_done_command [Todo.mk 1 "a" false, Todo.mk 2 "b" false] [0, 7] true =
      ([Todo.mk 1 "a" false, Todo.mk 2 "b" false].enum.map
        fun p => if List.contains [0, 7] p.1 then { p.2 with done := true } else p.2) :=
  ⟨by decide,
    set_done_command_marks_exactly_positions
      [Todo.mk 1 "a" false, Todo.mk 2 "b" false] [0, 7] true (by decide)⟩

/-- C7: the done and undone commands never change any item's title or id, and an
item at a position outside the requested set is entirely unchanged. -/
theorem set_done_command_frame (db : DB) (ids : List Nat) (v : Bool)
    (h : (db.map Todo.id).Nodup) :
    (set_done_command db ids v).map (fun t => (t.id, t.title)) =
      db.map (fun t => (t.id, t.title)) ∧
    ∀ j, ids.contains j = false → (set_done_command db ids v)[j]? = db[j]? := by
  rw [set_done_eq ids v h]
  constructor
  · rw [List.map_map]
    have hfun : ∀ p : Nat × Todo,
        ((fun t : Todo => (t.id, t.title)) ∘
          fun q : Nat × Todo => if ids.contains q.1 then { q.2 with done := v } else q.2) p =
        ((fun t : Todo => (t.id, t.title)) ∘ Prod.snd) p := by
      intro p
      show ((if ids.contains p.1 then { p.2 with done := v } else p.2).id,
        (if ids.contains p.1 then { p.2 with done := v } else p.2).title) = (p.2.id, p.2.title)
      by_cases hc : ids.contains p.1 = true
      · rw [if_pos hc]
      · rw [if_neg hc]
    rw [funext hfun, ← List.map_map, List.enum_map_snd]
  · intro j hj
    rw [List.getElem?_map]
    by_cases hlt : j < db.length
    · rw [List.getElem?_eq_getElem (by simpa [List.enum_length] using hlt),
        List.getElem?_eq_getElem hlt, List.getElem_enum]
      show some (if ids.contains j then { db[j] with done := v } else db[j]) = some db[j]
      have hne : ¬ ids.contains j = true := by
        rw [hj]
        exact Bool.false_ne_true
      rw [if_neg hne]
    · rw [List.getElem?_eq_none (by simpa [List.enum_length] using Nat.le_of_not_lt hlt),
        List.getElem?_eq_none (Nat.le_of_not_lt hlt)]
      rfl

/-- C7 witness: marking position `0` done keeps both ids and titles, and leaves the
item at position `1` entirely unchanged. -/
theorem set_done_command_frame_witness :
    ([Todo.mk 1 "a" false, Todo.mk 2 "b" false].map Todo.id).Nodup ∧
    ((set_done_command [Todo.mk 1 "a" false, Todo.mk 2 "b" false] [0] true).map
        (fun t => (t.id, t.title)) =
      [Todo.mk 1 "a" false, Todo.mk 2 "b" false].map (fun t => (t.id, t.title)) ∧
    ∀ j, List.contains [0] j = false →
      (set_done_command [Todo.mk 1 "a" false, Todo.mk 2 "b" false] [0] true)[j]? =
        [Todo.mk 1 "a" false, Todo.mk 2 "b" false][j]?) :=
  ⟨by decide,
    set_done_command_frame [Todo.mk 1 "a" false, Todo.mk 2 "b" false] [0] true
      (by decide)⟩

/-! ## C1: `get_todos` lists items in ascending id order -/

theorem updateRow_map_id (db : DB) (t : Todo) :
    (updateRow db t).map Todo.id = db.map Todo.id := by
  unfold updateRow
  rw [List.map_map]
  apply List.map_congr_left
  intro r _
  show (applyUpd r t).id = r.id
  unfold applyUpd
  by_cases hc : r.id = t.id
  · rw [if_pos hc]
  · rw [if_neg hc]

theorem update_todos_map_id (db : DB) (ts : List Todo) :
    (update_todos db ts).map Todo.id = db.map Todo.id := by
  induction ts generalizing db with
  | nil => rfl
  | cons t ts ih =>
    have hstep : update_todos db (t :: ts) = update_todos (updateRow db t) ts := rfl
    rw [hstep, ih (updateRow db t), updateRow_map_id]

theorem le_foldr_max (l : List Nat) : ∀ x ∈ l, x ≤ l.foldr max 0 := by
  induction l with
  | nil =>
    intro x hx
    exact absurd hx (by simp)
  | cons a l ih =>
    intro x hx
    rw [List.foldr_cons]
    rcases List.mem_cons.mp hx with rfl | hx'
    · exact le_max_left _ _
    · exact (ih x hx').trans (le_max_right _ _)

theorem insertRow_pairwise (db : DB) (s : String) (d : Bool)
    (h : (db.map Todo.id).Pairwise (· < ·)) :
    ((insertRow db s d).map Todo.id).Pairwise (· < ·) := by
  unfold insertRow
  rw [List.map_append, List.pairwise_append]
  refine ⟨h, List.pairwise_singleton _ _, ?_⟩
  intro a ha b hb
  have hb' : b = nextId db := by simpa using hb
  subst hb'
  unfold nextId
  exact Nat.lt_succ_of_le (le_foldr_max _ a ha)

theorem add_todos_pairwise (db : DB) (ts : List Todo)
    (h : (db.map Todo.id).Pairwise (· < ·)) :
    ((add_todos db ts).map Todo.id).Pairwise (· < ·) := by
  induction ts generalizing db with
  | nil => exact h
  | cons t ts ih =>
    have hstep : add_todos db (t :: ts) = add_todos (insertRow db t.title t.done) ts := rfl
    rw [hstep]
    exact ih _ (insertRow_pairwise db t.title t.done h)

theorem remove_todos_pairwise (db : DB) (ids : List Nat)
    (h : (db.map Todo.id).Pairwise (· < ·)) :
    ((remove_todos db ids).map Todo.id).Pairwise (· < ·) := by
  unfold remove_todos
  exact List.Pairwise.sublist (List.Sublist.map Todo.id (List.filter_sublist db)) h

theorem reachable_sorted {db : DB} (h : Reachable db) :
    (db.map Todo.id).Pairwise (· < ·) := by
  induction h with
  | empty => exact List.Pairwise.nil
  | add titles hr ih => exact add_todos_pairwise _ _ ih
  | setDone ids v hr ih =>
    unfold set_done_command
    rw [update_todos_map_id]
    exact ih
  | remove indexes hr ih =>
    unfold remove_command
    exact remove_todos_pairwise _ _ ih
  | clear hr ih =>
    unfold clear_command
    exact remove_todos_pairwise _ _ ih

/-- C1: for every state reachable by the CLI's commands, `get_todos` returns the
stored items ordered by strictly ascending id, regardless of the order in which
rows were inserted, updated or deleted. -/
theorem get_todos_sorted_by_id (db : DB) (h : Reachable db) :
    ((get_todos db).map Todo.id).Pairwise (· < ·) :=
  reachable_sorted h

/-- C1 witness: after adding two items to the empty store, the listing is sorted by
ascending id. -/
theorem get_todos_sorted_by_id_witness :
    ((get_todos (add_command [] ["a", "b"])).map Todo.id).Pairwise (· < ·) :=
  get_todos_sorted_by_id (add_command [] ["a", "b"])
    (Reachable.add ["a", "b"] Reachable.empty)

/-! ## C3: `remove` deletes the items at the given display positions -/

/-- C3 counterexample: on a schema-valid state holding rows with ids `5` and
`2 ^ 32 + 5`, removing display index `1` (the second item) deletes the FIRST item:
the id collected for position 1 is truncated with `as u32` to `5` and deletes the
row with id `5` instead. -/
theorem remove_command_truncation_cex :
    remove_command [Todo.mk 5 "a" false, Todo.mk 4294967301 "b" false] [1] =
      [Todo.mk 4294967301 "b" false] ∧
    remove_command [Todo.mk 5 "a" false, Todo.mk 4294967301 "b" false] [1] ≠
      [Todo.mk 5 "a" false] := by
  exact ⟨by decide, by decide⟩

/-- C3 amended: when all stored ids are distinct (the PRIMARY KEY invariant) and fit
in 32 bits, `remove_command` translates each in-range display index to the id of the
item at that position and deletes exactly those items, keeping the rest in order;
in particular removing index 0 from a two-item list leaves exactly the second item
at display index 0. -/
theorem remove_command_deletes_positions (db : DB) (indexes : List Nat)
    (h : (db.map Todo.id).Nodup) (hlt : ∀ r ∈ db, r.id < 2 ^ 32) :
    remove_command db indexes =
      (db.enum.filter fun p => !(indexes.contains p.1)).map Prod.snd := by
  unfold remove_command remove_todos get_todos
  have hsellt : ∀ i ∈ ((db.enum.filter fun p => indexes.contains p.1).map
      fun p => p.2.id), i < 2 ^ 32 := by
    intro i hi
    obtain ⟨p, hp, hpid⟩ := List.mem_map.mp hi
    obtain ⟨hpe, -⟩ := List.mem_filter.mp hp
    obtain ⟨hplt, hpget⟩ := enum_mem_spec hpe
    rw [← hpid, ← hpget]
    exact hlt _ (List.getElem_mem hplt)
  rw [map_mod_of_lt hsellt]
  have hbridge : ∀ p ∈ db.enum,
      ((fun r : Todo => !(((db.enum.filter fun q => indexes.contains q.1).map
          fun q => q.2.id).contains r.id)) ∘ Prod.snd) p =
        (fun q : Nat × Todo => !(indexes.contains q.1)) p := by
    intro p hp
    obtain ⟨hplt, hpget⟩ := enum_mem_spec hp
    show (!(((db.enum.filter fun q => indexes.contains q.1).map
        fun q => q.2.id).contains p.2.id)) = (!(indexes.contains p.1))
    have hcc : ((db.enum.filter fun q => indexes.contains q.1).map
        fun q => q.2.id).contains p.2.id = indexes.contains p.1 := by
      rw [Bool.eq_iff_iff, contains_true_iff]
      constructor
      · intro hmem
        obtain ⟨q, hq, hqid⟩ := List.mem_map.mp hmem
        obtain ⟨hqe, hqc⟩ := List.mem_filter.mp hq
        obtain ⟨hqlt, hqget⟩ := enum_mem_spec hqe
        have hmapq : q.1 < (db.map Todo.id).length := by simpa using hqlt
        have hmapp : p.1 < (db.map Todo.id).length := by simpa using hplt
        have hge : (db.map Todo.id)[q.1] = (db.map Todo.id)[p.1] := by
          rw [List.getElem_map, List.getElem_map, hqget, hpget]
          exact hqid
        have hqp : q.1 = p.1 := (h.getElem_inj_iff).mp hge
        rw [← hqp]
        exact hqc
      · intro hc
        exact List.mem_map_of_mem _ (List.mem_filter.mpr ⟨hp, hc⟩)
    rw [hcc]
  calc db.filter (fun r => !(((db.enum.filter fun q => indexes.contains q.1).map
        fun q => q.2.id).contains r.id))
      = (db.enum.map Prod.snd).filter (fun r => !(((db.enum.filter
          fun q => indexes.contains q.1).map fun q => q.2.id).contains r.id)) := by
        rw [List.enum_map_snd]
    _ = (db.enum.filter ((fun r : Todo => !(((db.enum.filter
          fun q => indexes.contains q.1).map fun q => q.2.id).contains r.id)) ∘
            Prod.snd)).map Prod.snd := List.filter_map _ _
    _ = (db.enum.filter fun p => !(indexes.contains p.1)).map Prod.snd := by
        rw [List.filter_congr hbridge]

/-- C3 witness: removing display index 0 from a two-item store leaves exactly the
second original item at display index 0. -/
theorem remove_command_deletes_positions_witness :
    ([Todo.mk 1 "a" false, Todo.mk 2 "b" false].map Todo.id).Nodup ∧
    (∀ r ∈ [Todo.mk 1 "a" false, Todo.mk 2 "b" false], r.id < 2 ^ 32) ∧
    remove_command [Todo.mk 1 "a" false, Todo.mk 2 "b" false] [0] =
      ([Todo.mk 1 "a" false, Todo.mk 2 "b" false].enum.filter
        fun p => !(List.contains [0] p.1)).map Prod.snd :=
  ⟨by decide, by decide,
    remove_command_deletes_positions [Todo.mk 1 "a" false, Todo.mk 2 "b" false] [0]
      (by decide) (by decide)⟩

/-! ## C4: `clear` deletes exactly the done items -/

/-- C4 counterexample: on a schema-valid state holding a not-done row with id `5`
and a done row with id `2 ^ 32 + 5`, `clear` deletes the NOT-done row and keeps the
done row: the collected done id is truncated with `as u32` to `5`, which aliases the
other row's id. -/
theorem clear_command_truncation_cex :
    clear_command [Todo.mk 5 "a" false, Todo.mk 4294967301 "b" true] =
      [Todo.mk 4294967301 "b" true] ∧
    clear_command [Todo.mk 5 "a" false, Todo.mk 4294967301 "b" true] ≠
      List.filter (fun r => !r.done)
        [Todo.mk 5 "a" false, Todo.mk 4294967301 "b" true] := by
  exact ⟨by decide, by decide⟩

/-- C4 amended: when all stored ids are distinct (the PRIMARY KEY invariant) and fit
in 32 bits, `clear` deletes exactly the items whose done flag is true and leaves
every not-done item stored unchanged, in order. -/
theorem clear_command_removes_done (db : DB)
    (h : (db.map Todo.id).Nodup) (hlt : ∀ r ∈ db, r.id < 2 ^ 32) :
    clear_command db = db.filter fun r => !r.done := by
  unfold clear_command remove_todos get_todos
  have hmod : (((db.filter fun t => t.done).map Todo.id).map fun i => i % 2 ^ 32) =
      (db.filter fun t => t.done).map Todo.id := by
    apply map_mod_of_lt
    intro i hi
    obtain ⟨s, hs, hsid⟩ := List.mem_map.mp hi
    exact hsid ▸ hlt s (List.mem_filter.mp hs).1
  rw [hmod]
  apply List.filter_congr
  intro r hr
  have hcr : ((db.filter fun t => t.done).map Todo.id).contains r.id = r.done := by
    rw [Bool.eq_iff_iff, contains_true_iff]
    constructor
    · intro hmem
      obtain ⟨s, hs, hsid⟩ := List.mem_map.mp hmem
      obtain ⟨hsdb, hsdone⟩ := List.mem_filter.mp hs
      have hsr : s = r := List.inj_on_of_nodup_map h hsdb hr hsid
      exact hsr ▸ hsdone
    · intro hdone
      exact List.mem_map_of_mem Todo.id (List.mem_filter.mpr ⟨hr, hdone⟩)
  show (!((db.filter fun t => t.done).map Todo.id).contains r.id) = (!r.done)
  rw [hcr]

/-- C4 witness: after marking one of two items done, `clear` leaves exactly the
not-done item. -/
theorem clear_command_removes_done_witness :
    ([Todo.mk 1 "a" false, Todo.mk 2 "b" true].map Todo.id).Nodup ∧
    (∀ r ∈ [Todo.mk 1 "a" false, Todo.mk 2 "b" true], r.id < 2 ^ 32) ∧
    clear_command [Todo.mk 1 "a" false, Todo.mk 2 "b" true] =
      List.filter (fun r => !r.done) [Todo.mk 1 "a" false, Todo.mk 2 "b" true] :=
  ⟨by decide, by decide,
    clear_command_removes_done [Todo.mk 1 "a" false, Todo.mk 2 "b" true]
      (by decide) (by decide)⟩

/-! ## C5: read-all after insert-many round-trips titles in order -/

theorem add_todos_take_drop (db : DB) (ts : List Todo) :
    (add_todos db ts).take db.length = db ∧
    ((add_todos db ts).drop db.length).map Todo.title = ts.map Todo.title ∧
    ((add_todos db ts).drop db.length).map Todo.done = ts.map Todo.done := by
  induction ts generalizing db with
  | nil => simp [add_todos]
  | cons t ts ih =>
    have hstep : add_todos db (t :: ts) = add_todos (insertRow db t.title t.done) ts := rfl
    obtain ⟨ih1, ih2, ih3⟩ := ih (insertRow db t.title t.done)
    have hlen : (insertRow db t.title t.done).length = db.length + 1 := by
      simp [insertRow]
    have hins : insertRow db t.title t.done =
        db ++ [{ id := nextId db, title := t.title, done := t.done }] := rfl
    rw [hlen] at ih1 ih2 ih3
    have e1 : (add_todos (insertRow db t.title t.done) ts).take db.length = db := by
      have hnest : (add_todos (insertRow db t.title t.done) ts).take db.length =
          ((add_todos (insertRow db t.title t.done) ts).take (db.length + 1)).take
            db.length := by
        rw [List.take_take]
        congr 1
        exact (min_eq_left (Nat.le_succ _)).symm
      rw [hnest, ih1, hins]
      exact List.take_left db _
    have e2 : (add_todos (insertRow db t.title t.done) ts).drop db.length =
        { id := nextId db, title := t.title, done := t.done } ::
          (add_todos (insertRow db t.title t.done) ts).drop (db.length + 1) := by
      conv_lhs => rw [← List.take_append_drop (db.length + 1)
        (add_todos (insertRow db t.title t.done) ts)]
      rw [ih1, hins, List.append_assoc, List.drop_left]
      rfl
    rw [hstep]
    refine ⟨e1, ?_, ?_⟩
    · rw [e2, List.map_cons, ih2, List.map_cons]
    · rw [e2, List.map_cons, ih3, List.map_cons]

/-- C5: `get_todos` right after `add_command titles` returns the previously stored
items followed by new items whose titles equal `titles` in the same order, all
newly inserted items having `done = false`. -/
theorem read_all_after_add (db : DB) (titles : List String) :
    (get_todos (add_command db titles)).take db.length = get_todos db ∧
    ((get_todos (add_command db titles)).drop db.length).map Todo.title = titles ∧
    ∀ t ∈ (get_todos (add_command db titles)).drop db.length, t.done = false := by
  obtain ⟨h1, h2, h3⟩ := add_todos_take_drop db (titles.map Todo.new)
  refine ⟨h1, ?_, ?_⟩
  · show ((add_todos db (titles.map Todo.new)).drop db.length).map Todo.title = titles
    rw [h2, List.map_map]
    have hcomp : (Todo.title ∘ Todo.new) = fun s : String => s := rfl
    rw [hcomp, List.map_id' titles]
  · intro t ht
    have ht' : t ∈ (add_todos db (titles.map Todo.new)).drop db.length := ht
    have hmem : t.done ∈
        ((add_todos db (titles.map Todo.new)).drop db.length).map Todo.done :=
      List.mem_map_of_mem Todo.done ht'
    rw [h3, List.map_map] at hmem
    have hcomp : (Todo.done ∘ Todo.new) = fun _ : String => false := rfl
    rw [hcomp] at hmem
    obtain ⟨s, hs, hvs⟩ := List.mem_map.mp hmem
    exact hvs.symm

/-- C10 witness: updating an item with absent id `2` leaves the one-row store
unchanged. -/
theorem update_todos_absent_id_noop_witness :
    (∀ t ∈ [Todo.mk 2 "b" true], t.id ∉ [Todo.mk 1 "a" false].map Todo.id) ∧
    update_todos [Todo.mk 1 "a" false] [Todo.mk 2 "b" true] = [Todo.mk 1 "a" false] :=
  ⟨by decide,
    update_todos_absent_id_noop [Todo.mk 1 "a" false] [Todo.mk 2 "b" true] (by decide)⟩
